import Mathlib

/-!
Verification of the GrindBot task server (`src/server.js`).

The sampled source file contains two historical iterations of the server,
separated by a document marker:

* iteration A (lines 1-509): the `TmuxSession`-class variant.  Its lifecycle is
  `pending → running → completed`; its `pollTick` re-attaches to tmux sessions
  that survived a server restart; its shared completion function `finishTask`
  is guarded on `status === 'running'`; its `stripAnsi` removes CSI sequences
  (parameters `[0-9;?]`, finals `[a-zA-Z<>=~]`), OSC sequences, character-set
  selection escapes and carriage returns.

* iteration B (lines 510-1023): the question/review variant.  Its lifecycle is
  `pending → running → review|question → …`; its `pollTick` resets any running
  task without a registry entry to `pending` (no re-attach); `finishTmuxTask`
  is unguarded; its `stripAnsi` removes only CSI (parameters `[0-9;]`, finals
  `[a-zA-Z]`) and OSC sequences.

Text is modelled as `List Char`.  JavaScript string falsiness (null or empty)
is modelled explicitly where the source relies on it.
-/

namespace GrindBot

/-- The characters matched by ECMAScript's `\s`: the WhiteSpace production
(tab, vertical tab, form feed, space, no-break space, zero-width no-break
space and the Unicode space separators) together with the LineTerminators
(LF, CR, LS, PS).  `String.prototype.trim` removes the same class. -/
def jsWs (c : Char) : Bool :=
  c = ' ' || c = '\t' || c = '\n' || c = '\x0b' || c = '\x0c' || c = '\r' ||
  c = '\u00a0' || c = '\u1680' || ('\u2000' ≤ c && c ≤ '\u200a') ||
  c = '\u2028' || c = '\u2029' || c = '\u202f' || c = '\u205f' ||
  c = '\u3000' || c = '\ufeff'

/-- JavaScript `String.prototype.trim`: drop leading and trailing whitespace. -/
def jsTrim (cs : List Char) : List Char :=
  ((cs.dropWhile jsWs).reverse.dropWhile jsWs).reverse

/-- Task statuses of the question/review iteration (iteration A uses the
subset `pending`, `running`, `completed`). -/
inductive Status where
  | pending
  | running
  | review
  | question
  | completed
deriving DecidableEq

/-- History-entry roles.  The source stores the worker's entries under the
role string `'claude'` (the spec calls this the worker role) and the user's
under `'user'`. -/
inductive Role where
  | claude
  | user
deriving DecidableEq

/-- One entry of a task's history: `{ role, content }`. -/
structure HistEntry where
  role : Role
  content : List Char
deriving DecidableEq

/-- A task record, with the fields created by `POST /api/tasks` of the
question/review iteration.  Absent (`null`) values are `none`. -/
structure Task where
  id : List Char
  title : List Char
  description : List Char
  status : Status
  output : Option (List Char)
  question : Option (List Char)
  feedback : Option (List Char)
  history : List HistEntry
  pid : Option Nat
  createdAt : List Char
  updatedAt : List Char
deriving DecidableEq

/-- `POST /api/tasks`: the freshly created task record. -/
def newTask (id title descr ts : List Char) : Task :=
  { id := id, title := title, description := descr, status := .pending,
    output := none, question := none, feedback := none, history := [],
    pid := none, createdAt := ts, updatedAt := ts }

/-- The fixed output cap used at every capture site in the source. -/
def outputCap : Nat := 50000

/-- `output.length > 50000 ? output.slice(-50000) : output`: keep the tail. -/
def truncateTail (cs : List Char) : List Char :=
  if cs.length > outputCap then cs.drop (cs.length - outputCap) else cs

/-! ### stripAnsi

Each JavaScript `str.replace(/pat/g, '')` is a single left-to-right pass over
the original string: at each position, if the pattern matches there, the match
is removed and scanning resumes after it; otherwise the character is kept and
scanning advances one position.  The escape-sequence patterns are
deterministic because their parameter classes are disjoint from their
terminator classes.
-/

def escChar : Char := '\x1b'

def belChar : Char := '\x07'

/-- CSI parameter characters of iteration A's pattern `[0-9;?]`. -/
def isCsiParam1 (c : Char) : Bool := c.isDigit || c = ';' || c = '?'

/-- CSI final characters of iteration A's pattern `[a-zA-Z<>=~]`. -/
def isCsiFinal1 (c : Char) : Bool :=
  c.isAlpha || c = '<' || c = '>' || c = '=' || c = '~'

/-- CSI parameter characters of iteration B's pattern `[0-9;]`. -/
def isCsiParam2 (c : Char) : Bool := c.isDigit || c = ';'

/-- CSI final characters of iteration B's pattern `[a-zA-Z]`. -/
def isCsiFinal2 (c : Char) : Bool := c.isAlpha

/-!
The replacement passes are modelled as single-pass automata that consume one
character per step (so the kernel can evaluate them).  Each automaton is
equivalent to the regex engine's scan because a match can only start at an
escape character and, for the CSI and charset patterns, the parameter class
is disjoint from the terminator class (`final_not_param` lemmas below), so no
backtracking into a parameter run can ever succeed.  On a failed attempt the
buffered characters are emitted verbatim and scanning resumes at the
offending character, which is the only position in the buffer that could
still start a match.
-/

/-- Automaton state for the CSI pass: outside any candidate, after `ESC`, or
after `ESC [` with the reversed parameter run consumed so far. -/
inductive CsiState where
  | plain
  | afterEsc
  | inSeq (acc : List Char)

/-- One pass of `.replace(/ESC \[ param* final/g, '')`. -/
def csiRun (param finalc : Char → Bool) : CsiState → List Char → List Char
  | .plain, [] => []
  | .afterEsc, [] => [escChar]
  | .inSeq acc, [] => escChar :: '[' :: acc.reverse
  | .plain, c :: tl =>
    if c = escChar then csiRun param finalc .afterEsc tl
    else c :: csiRun param finalc .plain tl
  | .afterEsc, c :: tl =>
    if c = '[' then csiRun param finalc (.inSeq []) tl
    else if c = escChar then escChar :: csiRun param finalc .afterEsc tl
    else escChar :: c :: csiRun param finalc .plain tl
  | .inSeq acc, c :: tl =>
    if param c then csiRun param finalc (.inSeq (c :: acc)) tl
    else if finalc c then csiRun param finalc .plain tl
    else if c = escChar then
      escChar :: '[' :: acc.reverse ++ csiRun param finalc .afterEsc tl
    else escChar :: '[' :: acc.reverse ++ c :: csiRun param finalc .plain tl

/-- Global replacement of `ESC [ param* final` by the empty string. -/
def replaceCsi (param finalc : Char → Bool) (cs : List Char) : List Char :=
  csiRun param finalc .plain cs

/-- Automaton state for the OSC pass: outside any candidate, after `ESC`, or
after `ESC ]` with the reversed body consumed so far. -/
inductive OscState where
  | plain
  | afterEsc
  | inSeq (acc : List Char)

/-- One pass of `.replace(/ESC \] [^BEL]* BEL/g, '')`.  The body may contain
anything but BEL (escapes included); when the input ends inside a candidate,
no BEL follows any later `ESC ]` either, so emitting the buffer verbatim
agrees with the engine. -/
def oscRun : OscState → List Char → List Char
  | .plain, [] => []
  | .afterEsc, [] => [escChar]
  | .inSeq acc, [] => escChar :: ']' :: acc.reverse
  | .plain, c :: tl =>
    if c = escChar then oscRun .afterEsc tl
    else c :: oscRun .plain tl
  | .afterEsc, c :: tl =>
    if c = ']' then oscRun (.inSeq []) tl
    else if c = escChar then escChar :: oscRun .afterEsc tl
    else escChar :: c :: oscRun .plain tl
  | .inSeq acc, c :: tl =>
    if c = belChar then oscRun .plain tl
    else oscRun (.inSeq (c :: acc)) tl

/-- Global replacement of `ESC ] [^BEL]* BEL` by the empty string. -/
def replaceOsc (cs : List Char) : List Char :=
  oscRun .plain cs

/-- Character-set selection finals: `[0-9A-Z]`. -/
def isCharsetFinal (c : Char) : Bool := c.isDigit || c.isUpper

/-- Automaton state for the charset pass: outside any candidate, after `ESC`,
or after `ESC (` / `ESC )`. -/
inductive CharsetState where
  | plain
  | afterEsc
  | afterPair (d : Char)

/-- One pass of `.replace(/ESC [()] [0-9A-Z]/g, '')`. -/
def charsetRun : CharsetState → List Char → List Char
  | .plain, [] => []
  | .afterEsc, [] => [escChar]
  | .afterPair d, [] => escChar :: [d]
  | .plain, c :: tl =>
    if c = escChar then charsetRun .afterEsc tl
    else c :: charsetRun .plain tl
  | .afterEsc, c :: tl =>
    if c = '(' || c = ')' then charsetRun (.afterPair c) tl
    else if c = escChar then escChar :: charsetRun .afterEsc tl
    else escChar :: c :: charsetRun .plain tl
  | .afterPair d, c :: tl =>
    if isCharsetFinal c then charsetRun .plain tl
    else if c = escChar then escChar :: d :: charsetRun .afterEsc tl
    else escChar :: d :: c :: charsetRun .plain tl

/-- Global replacement of `ESC [()] [0-9A-Z]` by the empty string. -/
def replaceCharset (cs : List Char) : List Char :=
  charsetRun .plain cs

/-- Iteration A's `stripAnsi` (lines 91-98): CSI with `[0-9;?]` parameters and
`[a-zA-Z<>=~]` finals, then OSC, then charset escapes, then carriage returns. -/
def stripAnsi1 (cs : List Char) : List Char :=
  (replaceCharset (replaceOsc (replaceCsi isCsiParam1 isCsiFinal1 cs))).filter
    (· ≠ '\r')

/-- Iteration B's `stripAnsi` (lines 609-612): CSI with `[0-9;]` parameters and
`[a-zA-Z]` finals, then OSC.  No charset-escape and no carriage-return
removal. -/
def stripAnsi2 (cs : List Char) : List Char :=
  replaceOsc (replaceCsi isCsiParam2 isCsiFinal2 cs)

/-! ### The question marker scan

`output.match(/^\[QUESTION\]:\s*(.+)$/m)` returns the first (leftmost) match.
With the `m` flag, `^` matches at the start of the input and right after any
ECMAScript LineTerminator — LF, CR, LS (U+2028) or PS (U+2029) — so the
engine effectively tries each line start in order (inside a CRLF pair, the
position between CR and LF also counts).  `\s` contains the LineTerminators,
so after the literal marker the whitespace run may cross line breaks; `.`
matches everything except a LineTerminator, and `$` matches at the end of
the input or right before a LineTerminator.  Greedy backtracking of
`\s*(.+)$` after the marker gives: if a non-whitespace character follows the
marker's whitespace run, the capture is the text from that character up to
the next LineTerminator; if everything to the end of the string is
whitespace, the capture is the last character of that run that is not a
LineTerminator if one exists, and otherwise the attempt at this line fails.
This matters to the program because iteration B's `stripAnsi` does not
remove carriage returns, so the scanned text can contain CR.
-/

/-- `leadsWith pat cs` is true when `pat` is an initial segment of `cs`. -/
def leadsWith : List Char → List Char → Bool
  | [], _ => true
  | _ :: _, [] => false
  | a :: as, b :: bs => a = b && leadsWith as bs

/-- The characters of the question marker `[QUESTION]:`. -/
def markerChars : List Char := "[QUESTION]:".toList

/-- ECMAScript LineTerminators: LF, CR, LS (U+2028) and PS (U+2029).  With
the `m` flag, `^` matches right after any of them and `$` right before any
of them; `.` matches no such character. -/
def isLineTerm (c : Char) : Bool :=
  c = '\n' || c = '\r' || c = '\u2028' || c = '\u2029'

/-- The characters `.` can match: everything but a LineTerminator. -/
def notLineTerm (c : Char) : Bool := !isLineTerm c

/-- The `\s*(.+)$` part of the question regex, applied to the text right after
the marker (see the section comment for the backtracking analysis). -/
def matchTail (cs : List Char) : Option (List Char) :=
  match cs.dropWhile jsWs with
  | c :: tl => some ((c :: tl).takeWhile notLineTerm)
  | [] =>
    match cs.reverse.dropWhile isLineTerm with
    | c :: _ => some [c]
    | [] => none

/-- The scan of `/^\[QUESTION\]:\s*(.+)$/m`: the engine tries each position
in order, but `^` succeeds only at line starts.  `atStart` records whether
the current position is a line start; after consuming a character `c` the
next position is a line start exactly when `c` was a LineTerminator. -/
def qscan : Bool → List Char → Option (List Char)
  | _, [] => none
  | atStart, c :: tl =>
    if atStart && leadsWith markerChars (c :: tl) then
      match matchTail ((c :: tl).drop 11) with
      | some cap => some cap
      | none => qscan (isLineTerm c) tl
    else qscan (isLineTerm c) tl

/-- The first match of `/^\[QUESTION\]:\s*(.+)$/m` (position 0 is a line
start). -/
def questionScan (cs : List Char) : Option (List Char) :=
  qscan true cs

/-- Stated from the claim's words, for comparison with `questionScan`: the
first line (lines being delimited by the LineTerminators) of the text that
starts with the marker `[QUESTION]:`. -/
def markerLineAux : Bool → List Char → Option (List Char)
  | _, [] => none
  | atStart, c :: tl =>
    if atStart && leadsWith markerChars (c :: tl) then
      some ((c :: tl).takeWhile notLineTerm)
    else markerLineAux (isLineTerm c) tl

/-- The first line of the text that starts with `[QUESTION]:` (stated from
the claim's words). -/
def markerLineSpec (cs : List Char) : Option (List Char) :=
  markerLineAux true cs

/-- The shared classification step of `finishTmuxTask` (lines 627-634) and the
legacy close handler (lines 775-782): on a regex match, `question` status with
the trimmed capture; otherwise `review` status with the question cleared. -/
def classifyOutput (out : List Char) : Status × Option (List Char) :=
  match questionScan out with
  | some cap => (.question, some (jsTrim cap))
  | none => (.review, none)

/-! ### Completion, dispatch and tick operations -/

def noOutputText : List Char := "(no output)".toList

def endedPlaceholder : List Char := "(session ended while server was down)".toList

/-- Iteration A's shared completion function `finishTask` (lines 101-116):
guarded on `status === 'running'`; on a running task it sanitises, truncates,
stores the output and marks the task `completed`.  `raw = []` models a falsy
(absent or empty) `rawOutput`. -/
def finishTask (raw now : List Char) (t : Task) : Task :=
  if t.status ≠ Status.running then t
  else
    let o0 := if raw = [] then noOutputText else raw
    let output := truncateTail (stripAnsi1 o0)
    { t with output := some output, status := .completed, pid := none,
             updatedAt := now }

/-- The text `finishTmuxTask` works on: the sanitised log content (or the
no-output placeholder when the read fails), tail-truncated. -/
def finishTmuxOutput (log : Option (List Char)) : List Char :=
  truncateTail (match log with
    | some l => stripAnsi2 l
    | none => noOutputText)

/-- Iteration B's `finishTmuxTask` (lines 614-647).  `log` is the content of
the session's log file (`none` when the read fails).  Note: unlike iteration
A's `finishTask`, there is no `status === 'running'` guard. -/
def finishTmuxTask (log : Option (List Char)) (now : List Char) (t : Task) : Task :=
  { t with output := some (finishTmuxOutput log),
           status := (classifyOutput (finishTmuxOutput log)).1,
           question := (classifyOutput (finishTmuxOutput log)).2,
           history := t.history ++ [⟨Role.claude, finishTmuxOutput log⟩],
           pid := none, feedback := none, updatedAt := now }

/-- The raw output of a closed direct-process worker:
`stdout || stderr || (code !== 0 ? placeholder : '(no output)')`. -/
def legacyOutput (stdout stderr : List Char) (code : Int) : List Char :=
  if stdout ≠ [] then stdout
  else if stderr ≠ [] then stderr
  else if code ≠ 0 then
    ("(process exited with code " ++ toString code ++ ")").toList
  else noOutputText

/-- Iteration B's direct-process close handler inside `spawnClaudeLegacy`
(lines 766-790).  The stored output is truncated, but the question scan and
the history entry use the raw output. -/
def legacyClose (stdout stderr : List Char) (code : Int) (now : List Char)
    (t : Task) : Task :=
  { t with output := some (truncateTail (legacyOutput stdout stderr code)),
           status := (classifyOutput (legacyOutput stdout stderr code)).1,
           question := (classifyOutput (legacyOutput stdout stderr code)).2,
           history := t.history ++ [⟨Role.claude, legacyOutput stdout stderr code⟩],
           pid := none, feedback := none, updatedAt := now }

def spawnErrorText (err : List Char) : List Char :=
  "Error spawning claude: ".toList ++ err

/-- Iteration B's direct-process error handler inside `spawnClaudeLegacy`
(lines 792-804): an unspawnable worker yields an immediate review-state
completion carrying the error text. -/
def legacyError (err now : List Char) (t : Task) : Task :=
  { t with status := .review, output := some (spawnErrorText err),
           history := t.history ++ [⟨Role.claude, spawnErrorText err⟩],
           pid := none, updatedAt := now }

def tmuxErrorText (err : List Char) : List Char :=
  "Error starting tmux session: ".toList ++ err

/-- `spawnClaudeTmux` success path (lines 735-738). -/
def spawnTmuxOk (now : List Char) (t : Task) : Task :=
  { t with status := .running, pid := none, updatedAt := now }

/-- `spawnClaudeTmux` failure path (lines 739-746): a failing tmux
session-creation command yields an immediate review-state completion carrying
the error text. -/
def spawnTmuxErr (err now : List Char) (t : Task) : Task :=
  { t with status := .review, output := some (tmuxErrorText err),
           history := t.history ++ [⟨Role.claude, tmuxErrorText err⟩],
           updatedAt := now }

/-- `spawnClaudeLegacy` synchronous tail (lines 806-809). -/
def spawnLegacyOk (pid : Nat) (now : List Char) (t : Task) : Task :=
  { t with status := .running, pid := some pid, updatedAt := now }

/-- The outcome of iteration A's restart recovery: the (possibly) updated task
and whether a re-attached session handle was re-registered. -/
structure Recover1Result where
  task : Task
  reattached : Bool
deriving DecidableEq

/-- Iteration A's `pollTick` handling of a running task with no registry entry
(lines 223-245): with tmux, re-attach if the session still exists, otherwise
complete with the stored output (kept when truthy) or a placeholder; without
tmux, demote to pending. -/
def recoverRunning1 (hasTmux sessionExists : Bool) (now : List Char) (t : Task) :
    Recover1Result :=
  if hasTmux then
    if sessionExists then ⟨t, true⟩
    else
      ⟨{ t with status := .completed,
                output := some (match t.output with
                  | some s => if s = [] then endedPlaceholder else s
                  | none => endedPlaceholder),
                pid := none, updatedAt := now }, false⟩
  else ⟨{ t with status := .pending, pid := none, updatedAt := now }, false⟩

/-- The two kinds of registry entry of iteration B: `{ tmux: true, … }` or
`{ process }`. -/
inductive RegEntry where
  | tmuxEntry
  | procEntry
deriving DecidableEq

/-- Iteration B's `pollTick` handling of a running task (lines 657-680): with
a tmux registry entry, reconcile via `finishTmuxTask` when the session is
gone; with a process entry, do nothing (completion arrives via the close
callback); with no registry entry, reset to `pending` — under either backend
(the third branch's comment reads `Server restarted — reset to pending`). -/
def tickRunning2 (hasTmux : Bool) (entry : Option RegEntry) (sessionExists : Bool)
    (log : Option (List Char)) (now : List Char) (t : Task) : Task :=
  match entry with
  | some RegEntry.tmuxEntry =>
    if hasTmux && !sessionExists then finishTmuxTask log now t else t
  | some RegEntry.procEntry => t
  | none => { t with status := .pending, pid := none, updatedAt := now }

/-! ### The PATCH endpoint -/

/-- The body of a `PATCH /api/tasks/:id` request.  A `Status` value models a
truthy status string; `none` models an absent (or falsy) status field. -/
structure PatchBody where
  status : Option Status
  feedback : Option (List Char)
  title : Option (List Char)
  description : Option (List Char)

inductive PatchError where
  | notFound
  | invalidTransition (fromSt toSt : Status)
  | missingFeedback
deriving DecidableEq

/-- The `validTransitions` table (lines 877-881).  Statuses without a key
(`running`, `completed`) behave as an empty list: `allowed` is undefined and
the request is rejected. -/
def allowedTargets : Status → List Status
  | .review => [.completed, .pending]
  | .question => [.pending]
  | .pending => [.pending]
  | .running => []
  | .completed => []

/-- JavaScript truthiness of an optional string (`null` and `''` are falsy). -/
def truthy : Option (List Char) → Bool
  | none => false
  | some s => s ≠ []

/-- The unconditional tail of the PATCH handler: title/description update and
`updatedAt` refresh (lines 903-905; iteration A's PATCH handler, lines
352-364, consists of exactly this). -/
def applyMeta (body : PatchBody) (now : List Char) (t : Task) : Task :=
  { t with title := body.title.getD t.title,
           description := body.description.getD t.description,
           updatedAt := now }

/-- The PATCH handler's per-task logic (lines 873-908).  On the error paths
the handler returns before any mutation, so the stored task is unchanged. -/
def patchTaskBody (t : Task) (body : PatchBody) (now : List Char) :
    Except PatchError Task :=
  match body.status with
  | some st =>
    if !(allowedTargets t.status).contains st then
      .error (.invalidTransition t.status st)
    else if (t.status = Status.review || t.status = Status.question) &&
        st = Status.pending then
      if !truthy body.feedback then .error .missingFeedback
      else
        .ok (applyMeta body now
          { t with feedback := body.feedback,
                   history := t.history ++ [⟨Role.user, body.feedback.getD []⟩],
                   status := st })
    else .ok (applyMeta body now { t with status := st })
  | none => .ok (applyMeta body now t)

/-- The PATCH endpoint over the stored task list: `tasks.find(...)` selects
the first task with the requested id, the handler mutates it in place, and
`saveTasks` persists the whole array; an error response saves nothing. -/
def patchEndpoint (tasks : List Task) (id : List Char) (body : PatchBody)
    (now : List Char) : Except PatchError (List Task) :=
  match tasks with
  | [] => .error .notFound
  | t :: ts =>
    if t.id = id then (patchTaskBody t body now).map (· :: ts)
    else (patchEndpoint ts id body now).map (t :: ·)

/-! ### Reachable task states (question/review iteration) -/

/-- Task states reachable through the operations of the question/review
iteration.  The guards record the conditions under which the source invokes
each operation: `pollTick` dispatches only `pending` tasks and reconciles only
`running` ones, and the direct-process callbacks fire only after their task
was set `running`. -/
inductive Reachable : Task → Prop where
  | create (id title descr ts : List Char) : Reachable (newTask id title descr ts)
  | tmuxOk {t : Task} (now : List Char) : Reachable t → t.status = .pending →
      Reachable (spawnTmuxOk now t)
  | tmuxErr {t : Task} (err now : List Char) : Reachable t →
      t.status = .pending → Reachable (spawnTmuxErr err now t)
  | legacyOk {t : Task} (pid : Nat) (now : List Char) : Reachable t →
      t.status = .pending → Reachable (spawnLegacyOk pid now t)
  | legacyDone {t : Task} (stdout stderr : List Char) (code : Int)
      (now : List Char) : Reachable t → t.status = .running →
      Reachable (legacyClose stdout stderr code now t)
  | legacyErr {t : Task} (err now : List Char) : Reachable t →
      t.status = .running → Reachable (legacyError err now t)
  | tick2 {t : Task} (hasTmux : Bool) (entry : Option RegEntry)
      (sessionExists : Bool) (log : Option (List Char)) (now : List Char) :
      Reachable t → t.status = .running →
      Reachable (tickRunning2 hasTmux entry sessionExists log now t)
  | patch {t t' : Task} (body : PatchBody) (now : List Char) : Reachable t →
      patchTaskBody t body now = .ok t' → Reachable t'

/-! ### Concrete tasks used by witnesses and counterexamples -/

/-- A freshly created (pending) task. -/
def demoPending : Task := newTask "t1".toList "fix bug".toList "d".toList "ts0".toList

/-- A task in `review` state. -/
def demoReview : Task := { demoPending with status := .review }

/-- A task in `running` state. -/
def demoRunning : Task := { demoPending with status := .running }

/-- The frame of a metadata-only PATCH: only title, description and the
last-updated timestamp may differ. -/
def frameOnlyMeta (body : PatchBody) (now : List Char) (t tNew : Task) : Prop :=
  tNew.id = t.id ∧ tNew.status = t.status ∧ tNew.output = t.output ∧
  tNew.question = t.question ∧ tNew.feedback = t.feedback ∧
  tNew.history = t.history ∧ tNew.pid = t.pid ∧ tNew.createdAt = t.createdAt ∧
  tNew.title = body.title.getD t.title ∧
  tNew.description = body.description.getD t.description ∧
  tNew.updatedAt = now

/-- The dispatch step of the C5 chains: a created task set running by the
tmux dispatch path. -/
def c5running : Task :=
  spawnTmuxOk "ts1".toList (newTask "t1".toList "fix".toList "d".toList "ts0".toList)

/-- The reconciliation of `c5running` with worker log `"[QUESTION]: hi"`. -/
def c5questionOk : Task :=
  finishTmuxTask (some "[QUESTION]: hi".toList) "ts2".toList c5running

/-- The reconciliation of `c5running` with worker log `"[QUESTION]: "` — the
marker followed by a single space at the end of the log. -/
def c5questionEmpty : Task :=
  finishTmuxTask (some "[QUESTION]: ".toList) "ts2".toList c5running

/-- Concatenations of segments each satisfying `P`. -/
inductive CatOf (P : List Char → Prop) : List Char → Prop where
  | nil : CatOf P []
  | cons (s rest : List Char) : P s → CatOf P rest → CatOf P (s ++ rest)

/-- One control sequence of the classes the spec names, with iteration A's
CSI classes: a CSI sequence, an OSC title sequence (body free of BEL and
ESC), a character-set selection escape, or a carriage return. -/
inductive CtrlSeq : List Char → Prop where
  | csi (params : List Char) (fin : Char) :
      (∀ c ∈ params, isCsiParam1 c = true) → isCsiFinal1 fin = true →
      CtrlSeq (escChar :: '[' :: (params ++ [fin]))
  | osc (body : List Char) : (∀ c ∈ body, c ≠ belChar ∧ c ≠ escChar) →
      CtrlSeq (escChar :: ']' :: (body ++ [belChar]))
  | charset (d e : Char) : (d = '(' ∨ d = ')') → isCharsetFinal e = true →
      CtrlSeq [escChar, d, e]
  | cr : CtrlSeq ['\r']

/-- The control sequences iteration B's sanitizer targets: CSI with the
narrower classes, and OSC. -/
inductive CtrlSeq2 : List Char → Prop where
  | csi (params : List Char) (fin : Char) :
      (∀ c ∈ params, isCsiParam2 c = true) → isCsiFinal2 fin = true →
      CtrlSeq2 (escChar :: '[' :: (params ++ [fin]))
  | osc (body : List Char) : (∀ c ∈ body, c ≠ belChar ∧ c ≠ escChar) →
      CtrlSeq2 (escChar :: ']' :: (body ++ [belChar]))

/-- Segments surviving the CSI pass: OSC, charset, carriage return. -/
inductive OscCsSeq : List Char → Prop where
  | osc (body : List Char) : (∀ c ∈ body, c ≠ belChar ∧ c ≠ escChar) →
      OscCsSeq (escChar :: ']' :: (body ++ [belChar]))
  | charset (d e : Char) : (d = '(' ∨ d = ')') → isCharsetFinal e = true →
      OscCsSeq [escChar, d, e]
  | cr : OscCsSeq ['\r']

/-- Segments surviving the CSI and OSC passes: charset, carriage return. -/
inductive CsCrSeq : List Char → Prop where
  | charset (d e : Char) : (d = '(' ∨ d = ')') → isCharsetFinal e = true →
      CsCrSeq [escChar, d, e]
  | cr : CsCrSeq ['\r']

/-- Segments surviving iteration B's CSI pass: OSC only. -/
inductive OscSeq : List Char → Prop where
  | osc (body : List Char) : (∀ c ∈ body, c ≠ belChar ∧ c ≠ escChar) →
      OscSeq (escChar :: ']' :: (body ++ [belChar]))

/-! ### Claim theorems -/

/-- C9: `truncateTail` with the fixed cap of 50000 returns exactly the last
50000 characters when the text is longer than the cap (the discarded part is
the head), and is the identity when the length is at or under the cap. -/
theorem c9_truncateTail_spec (cs : List Char) :
    (cs.length > 50000 →
      cs.take (cs.length - 50000) ++ truncateTail cs = cs ∧
      (truncateTail cs).length = 50000) ∧
    (cs.length ≤ 50000 → truncateTail cs = cs) := by
  constructor
  · intro h
    constructor
    · rw [truncateTail, outputCap, if_pos h]
      exact List.take_append_drop _ _
    · rw [truncateTail, outputCap, if_pos h]
      simp
      omega
  · intro h
    rw [truncateTail, outputCap, if_neg (by omega)]

theorem c9_truncateTail_spec_witness :
    (List.replicate 50001 'a').take 1 ++ truncateTail (List.replicate 50001 'a')
        = List.replicate 50001 'a' ∧
    (truncateTail (List.replicate 50001 'a')).length = 50000 := by
  have hlen : (List.replicate 50001 'a').length = 50001 := List.length_replicate _ _
  have h := (c9_truncateTail_spec (List.replicate 50001 'a')).1
    (by rw [hlen]; norm_num)
  rw [hlen] at h
  have h2 : (50001 - 50000 : Nat) = 1 := by norm_num
  rw [h2] at h
  exact h

/-- C7: a pending task whose dispatch fails — the tmux session-creation
command fails, or the worker binary cannot be spawned — is immediately given
a review-state completion whose output carries the error text; in particular
it is not left `pending`. -/
theorem c7_dispatch_failure_review (t : Task) (err now : List Char)
    (h : t.status = .pending) :
    ((spawnTmuxErr err now t).status = .review ∧
      (spawnTmuxErr err now t).output = some (tmuxErrorText err) ∧
      (spawnTmuxErr err now t).status ≠ .pending) ∧
    ((legacyError err now t).status = .review ∧
      (legacyError err now t).output = some (spawnErrorText err) ∧
      (legacyError err now t).status ≠ .pending) := by
  refine ⟨⟨rfl, rfl, by simp [spawnTmuxErr]⟩, ⟨rfl, rfl, by simp [legacyError]⟩⟩

theorem c7_dispatch_failure_review_witness :
    (spawnTmuxErr "boom".toList "ts1".toList demoPending).status = .review ∧
    (legacyError "boom".toList "ts1".toList demoPending).status = .review := by
  have h := c7_dispatch_failure_review demoPending "boom".toList "ts1".toList rfl
  exact ⟨h.1.1, h.2.1⟩

/-- C6: a transition request to `pending` from `review` or `question` that
omits the feedback text (or supplies an empty one) fails with the
missing-feedback error; the endpoint returns before mutating and saves
nothing, so the stored task — its status and history included — is
unchanged. -/
theorem c6_missing_feedback (t : Task) (body : PatchBody) (now : List Char)
    (hs : t.status = .review ∨ t.status = .question)
    (hb : body.status = some .pending)
    (hf : body.feedback = none ∨ body.feedback = some []) :
    patchTaskBody t body now = .error .missingFeedback ∧
    patchEndpoint [t] t.id body now = .error .missingFeedback := by
  have h1 : patchTaskBody t body now = .error .missingFeedback := by
    rcases hs with hs | hs <;> rcases hf with hf | hf <;>
      simp [patchTaskBody, hb, hs, hf, allowedTargets, truthy]
  refine ⟨h1, ?_⟩
  simp [patchEndpoint, h1, Except.map]

theorem c6_missing_feedback_witness :
    patchTaskBody demoReview ⟨some .pending, none, none, none⟩ "ts1".toList
      = .error .missingFeedback :=
  (c6_missing_feedback demoReview ⟨some .pending, none, none, none⟩ "ts1".toList
    (Or.inl rfl) rfl (Or.inl rfl)).1

/-- C10: a PATCH request that supplies no status field changes at most the
title, the description and the last-updated timestamp of the addressed task;
its identifier, status, output, question, feedback, history, pid and creation
timestamp are unchanged, and every other task in the repository list is
unchanged. -/
theorem c10_patch_frame (tasks tasksNew : List Task) (id : List Char)
    (body : PatchBody) (now : List Char) (hb : body.status = none)
    (h : patchEndpoint tasks id body now = .ok tasksNew) :
    List.Forall₂ (fun t tNew => (t.id = id ∧ frameOnlyMeta body now t tNew) ∨ tNew = t)
      tasks tasksNew := by
  induction tasks generalizing tasksNew with
  | nil => simp [patchEndpoint] at h
  | cons t ts ih =>
    by_cases hid : t.id = id
    · rw [patchEndpoint, if_pos hid] at h
      rw [patchTaskBody, hb] at h
      simp [Except.map] at h
      subst h
      refine List.Forall₂.cons (Or.inl ⟨hid, ?_⟩) ?_
      · refine ⟨rfl, rfl, rfl, rfl, rfl, rfl, rfl, rfl, rfl, rfl, rfl⟩
      · exact List.forall₂_same.mpr (fun x _ => Or.inr rfl)
    · rw [patchEndpoint, if_neg hid] at h
      rcases hrec : patchEndpoint ts id body now with e | tsNew
      · rw [hrec] at h
        simp [Except.map] at h
      · rw [hrec] at h
        simp [Except.map] at h
        subst h
        exact List.Forall₂.cons (Or.inr rfl) (ih tsNew hrec)

theorem c10_patch_frame_witness :
    List.Forall₂
      (fun t tNew =>
        (t.id = "t1".toList ∧
          frameOnlyMeta ⟨none, none, some "new".toList, none⟩ "ts1".toList t tNew) ∨
        tNew = t)
      [demoPending]
      [applyMeta ⟨none, none, some "new".toList, none⟩ "ts1".toList demoPending] :=
  c10_patch_frame [demoPending]
    [applyMeta ⟨none, none, some "new".toList, none⟩ "ts1".toList demoPending]
    "t1".toList ⟨none, none, some "new".toList, none⟩ "ts1".toList rfl rfl

/-- C4 amended: iteration A's shared completion function `finishTask` is
guarded on `status === 'running'`: it is a no-op on any task that is not
`running`, and therefore invoking it twice in succession (with any outputs
and timestamps) leaves the task identical to invoking it once.  (Iteration
B's `finishTmuxTask` carries no such guard — see the counterexample.) -/
theorem c4_finishTask_guarded (t : Task) (raw rawB now nowB : List Char) :
    (t.status ≠ .running → finishTask raw now t = t) ∧
    finishTask rawB nowB (finishTask raw now t) = finishTask raw now t := by
  constructor
  · intro h
    simp [finishTask, h]
  · by_cases h : t.status = .running
    · simp [finishTask, h]
    · simp [finishTask, h]

theorem c4_finishTask_guarded_witness :
    finishTask "x".toList "ts1".toList demoReview = demoReview :=
  (c4_finishTask_guarded demoReview "x".toList "y".toList "ts1".toList
    "ts2".toList).1 (by decide)

/-- C4 counterexample: iteration B's reconciler `finishTmuxTask` has no
running-status guard.  Invoking it twice in succession on a task that the
first call moved to `review` appends a second worker history entry, so the
task after the second call differs from the task after the first call. -/
theorem c4_finishTmuxTask_unguarded_cex :
    finishTmuxTask (some "x".toList) "ts2".toList
        (finishTmuxTask (some "x".toList) "ts1".toList demoRunning)
      ≠ finishTmuxTask (some "x".toList) "ts1".toList demoRunning := by decide

/-- C1 amended: at a scheduler tick, a `running` task with no registry entry
is resolved as follows.  In iteration A (the `TmuxSession`-class variant):
with tmux, if the named session still exists the task is left unchanged and a
re-attached handle is re-registered; if the session is gone the task is
completed with its stored output (when truthy) or the unsupervised-end
placeholder; without tmux the task is demoted to `pending`.  In iteration B
(the question/review variant) the task is demoted to `pending` under either
backend — no reattachment is attempted. -/
theorem c1_restart_recovery (t : Task) (now : List Char) (hasTmux sx : Bool)
    (log : Option (List Char)) (h : t.status = .running) :
    (recoverRunning1 true true now t = ⟨t, true⟩) ∧
    ((recoverRunning1 true false now t).task.status = .completed ∧
      ((t.output = none ∨ t.output = some []) →
        (recoverRunning1 true false now t).task.output = some endedPlaceholder) ∧
      (∀ s, t.output = some s → s ≠ [] →
        (recoverRunning1 true false now t).task.output = some s)) ∧
    (recoverRunning1 false sx now t).task.status = .pending ∧
    (tickRunning2 hasTmux none sx log now t).status = .pending := by
  refine ⟨rfl, ⟨rfl, ?_, ?_⟩, rfl, rfl⟩
  · rintro (h0 | h0) <;> simp [recoverRunning1, h0]
  · intro s hs hne
    simp [recoverRunning1, hs, hne]

theorem c1_restart_recovery_witness :
    recoverRunning1 true true "ts1".toList demoRunning = ⟨demoRunning, true⟩ ∧
    (recoverRunning1 true false "ts1".toList demoRunning).task.status = .completed ∧
    (tickRunning2 true none true none "ts1".toList demoRunning).status = .pending := by
  have h := c1_restart_recovery demoRunning "ts1".toList true true none rfl
  exact ⟨h.1, h.2.1.1, h.2.2.2⟩

/-- C1 counterexample: in iteration B's tick, a `running` task with no
registry entry under the tmux backend (here with the named session still
alive) is demoted to `pending` — it neither stays `running` with a
re-registered handle nor is treated as completed. -/
theorem c1_tmux_no_entry_demoted_cex :
    ¬ ((tickRunning2 true none true none "ts1".toList demoRunning).status = .running ∨
       (tickRunning2 true none true none "ts1".toList demoRunning).status = .completed) := by
  decide

/-- C2 amended: a transition request via the task-update endpoint succeeds
exactly when it is one of: review → completed; review → pending with truthy
(non-empty) feedback; question → pending with truthy feedback; or the
self-transition pending → pending, which the endpoint's table also admits
with no guard although it is not a row of the §4.4 table.  Every (current,
requested) pair outside the endpoint's table is rejected with an
invalid-transition error carrying both the current and the requested state
(and never silently no-ops); an in-table reject/answer pair without feedback
fails with the missing-feedback error instead. -/
theorem c2_transition_table (t : Task) (body : PatchBody) (now : List Char)
    (s target : Status) (hs : t.status = s) (hb : body.status = some target) :
    ((∃ tNew, patchTaskBody t body now = .ok tNew) ↔
      ((s = .review ∧ target = .completed) ∨
       ((s = .review ∨ s = .question) ∧ target = .pending ∧
         truthy body.feedback = true) ∨
       (s = .pending ∧ target = .pending))) ∧
    (¬ ((s = .review ∧ (target = .completed ∨ target = .pending)) ∨
        (s = .question ∧ target = .pending) ∨
        (s = .pending ∧ target = .pending)) →
      patchTaskBody t body now = .error (.invalidTransition s target)) := by
  subst hs
  by_cases hf : truthy body.feedback
  all_goals cases ht : t.status
  all_goals cases target
  all_goals simp [patchTaskBody, hb, ht, allowedTargets, hf]

theorem c2_transition_table_witness :
    ∃ tNew, patchTaskBody demoReview ⟨some .completed, none, none, none⟩
      "ts1".toList = .ok tNew :=
  ((c2_transition_table demoReview ⟨some .completed, none, none, none⟩
      "ts1".toList .review .completed rfl rfl).1).2 (Or.inl ⟨rfl, rfl⟩)

/-- C2 counterexample: a request taking a `pending` task to `pending` — a
pair that is not a row of the §4.4 table — is accepted by the endpoint
instead of being rejected with an invalid-transition error. -/
theorem c2_pending_self_transition_cex :
    (∃ tNew, patchTaskBody demoPending ⟨some .pending, none, none, none⟩
        "ts1".toList = .ok tNew) ∧
    ∀ e, patchTaskBody demoPending ⟨some .pending, none, none, none⟩
        "ts1".toList ≠ .error e := by
  have hok : patchTaskBody demoPending ⟨some .pending, none, none, none⟩
      "ts1".toList = .ok (applyMeta ⟨some .pending, none, none, none⟩
        "ts1".toList { demoPending with status := .pending }) := rfl
  refine ⟨⟨_, hok⟩, ?_⟩
  intro e h
  rw [hok] at h
  exact Except.noConfusion h

/-! ### C3: the question-scan against the claim's line-based reading -/

theorem takeWhile_append_of_all (p : Char → Bool) (u v : List Char)
    (h : ∀ c ∈ u, p c = true) : (u ++ v).takeWhile p = u ++ v.takeWhile p := by
  induction u with
  | nil => simp
  | cons a w ih =>
    have ha : p a = true := h a (List.mem_cons_self a w)
    simp only [List.cons_append, List.takeWhile_cons, ha, if_true]
    rw [ih (fun c hc => h c (List.mem_cons_of_mem a hc))]

theorem dropWhile_append_left (p : Char → Bool) (u v : List Char)
    (h : u.dropWhile p ≠ []) : (u ++ v).dropWhile p = u.dropWhile p ++ v := by
  induction u with
  | nil => simp at h
  | cons a w ih =>
    by_cases ha : p a = true
    · rw [List.dropWhile_cons, if_pos ha] at h
      rw [List.cons_append, List.dropWhile_cons, if_pos ha, List.dropWhile_cons,
        if_pos ha]
      exact ih h
    · rw [List.cons_append, List.dropWhile_cons, if_neg ha, List.dropWhile_cons,
        if_neg ha, List.cons_append]

theorem dropWhile_ne_nil_of_exists (p : Char → Bool) (u : List Char)
    (h : ∃ c ∈ u, p c = false) : u.dropWhile p ≠ [] := by
  intro hnil
  rw [List.dropWhile_eq_nil_iff] at hnil
  rcases h with ⟨c, hc, hpc⟩
  have := hnil c hc
  rw [hpc] at this
  exact Bool.noConfusion this

theorem dropWhile_head_false (p : Char → Bool) :
    ∀ (l : List Char) (c : Char) (tl : List Char),
      l.dropWhile p = c :: tl → p c = false := by
  intro l
  induction l with
  | nil => intro c tl h; simp [List.dropWhile] at h
  | cons a w ih =>
    intro c tl h
    by_cases ha : p a = true
    · rw [List.dropWhile_cons, if_pos ha] at h
      exact ih c tl h
    · rw [List.dropWhile_cons, if_neg ha] at h
      cases h
      simpa using ha

theorem mem_of_mem_dropWhile (p : Char → Bool) :
    ∀ (l : List Char) (c : Char), c ∈ l.dropWhile p → c ∈ l := by
  intro l
  induction l with
  | nil => intro c h; simp [List.dropWhile] at h
  | cons a w ih =>
    intro c h
    by_cases ha : p a = true
    · rw [List.dropWhile_cons, if_pos ha] at h
      exact List.mem_cons_of_mem a (ih c h)
    · rw [List.dropWhile_cons, if_neg ha] at h
      exact h

theorem dropWhile_idem (p : Char → Bool) (l : List Char) :
    (l.dropWhile p).dropWhile p = l.dropWhile p := by
  induction l with
  | nil => rfl
  | cons a w ih =>
    by_cases ha : p a = true
    · rw [List.dropWhile_cons, if_pos ha]
      exact ih
    · rw [List.dropWhile_cons, if_neg ha, List.dropWhile_cons, if_neg ha]

theorem jsTrim_dropWhile (l : List Char) :
    jsTrim (l.dropWhile jsWs) = jsTrim l := by
  rw [jsTrim, jsTrim, dropWhile_idem]

theorem leadsWith_decomp :
    ∀ (pat u : List Char), leadsWith pat u = true → u = pat ++ u.drop pat.length := by
  intro pat
  induction pat with
  | nil => intro u _; simp
  | cons a ps ih =>
    intro u h
    cases u with
    | nil => simp [leadsWith] at h
    | cons b w =>
      rw [leadsWith] at h
      simp only [Bool.and_eq_true] at h
      obtain ⟨hab, h2⟩ := h
      have hab2 : a = b := by simpa using hab
      subst hab2
      simp only [List.length_cons, List.drop_succ_cons, List.cons_append,
        List.cons.injEq, true_and]
      exact ih w h2

/-- When a non-whitespace character follows the marker's whitespace run on
the same logical stretch reachable before a newline, the `\s*(.+)$` attempt
succeeds and captures from that character to the end of its line. -/
theorem matchTail_of_nonws (x : List Char)
    (h : ∃ c ∈ x.takeWhile notLineTerm, jsWs c = false) :
    matchTail x = some ((x.takeWhile notLineTerm).dropWhile jsWs) := by
  have hne : (x.takeWhile notLineTerm).dropWhile jsWs ≠ [] :=
    dropWhile_ne_nil_of_exists _ _ h
  have hsplit : x.takeWhile notLineTerm ++ x.dropWhile notLineTerm = x :=
    List.takeWhile_append_dropWhile notLineTerm x
  have h1 : x.dropWhile jsWs = (x.takeWhile notLineTerm).dropWhile jsWs ++ x.dropWhile notLineTerm := by
    conv_lhs => rw [← hsplit]
    exact dropWhile_append_left _ _ _ hne
  rcases hcase : (x.takeWhile notLineTerm).dropWhile jsWs with _ | ⟨c, tl⟩
  · exact absurd hcase hne
  · have hmem : ∀ e ∈ c :: tl, notLineTerm e = true := by
      intro e he
      rw [← hcase] at he
      exact List.mem_takeWhile_imp (mem_of_mem_dropWhile _ _ _ he)
    have hrest : (x.dropWhile notLineTerm).takeWhile notLineTerm = [] := by
      rcases hr : x.dropWhile notLineTerm with _ | ⟨r, rs⟩
      · rfl
      · have hnl : notLineTerm r = false := dropWhile_head_false _ _ _ _ hr
        rw [List.takeWhile_cons, if_neg (by simp [hnl])]
    have hgoal : x.dropWhile jsWs = c :: (tl ++ x.dropWhile notLineTerm) := by
      rw [h1, hcase, List.cons_append]
    have htake : (c :: (tl ++ x.dropWhile notLineTerm)).takeWhile notLineTerm = c :: tl := by
      have h2 := takeWhile_append_of_all notLineTerm (c :: tl) (x.dropWhile notLineTerm) hmem
      rw [List.cons_append] at h2
      rw [h2, hrest, List.append_nil]
    unfold matchTail
    rw [hgoal]
    exact congrArg some htake

theorem markerChars_length : markerChars.length = 11 := by decide

/-- The regex scan agrees with the claim's line-based reading: if no line
starts with the marker there is no match, and if the first marker line has a
non-whitespace character after the colon, the capture is the remainder of
that line from its first non-whitespace character. -/
theorem qscan_markerLine :
    ∀ (cs : List Char) (b : Bool),
      (markerLineAux b cs = none → qscan b cs = none) ∧
      (∀ L, markerLineAux b cs = some L →
        (∃ c ∈ L.drop 11, jsWs c = false) →
        qscan b cs = some ((L.drop 11).dropWhile jsWs)) := by
  intro cs
  induction cs with
  | nil =>
    intro b
    constructor
    · intro _; rfl
    · intro L hL
      simp [markerLineAux] at hL
  | cons c tl ih =>
    intro b
    by_cases hb : (b && leadsWith markerChars (c :: tl)) = true
    · constructor
      · intro h
        rw [markerLineAux, if_pos hb] at h
        exact Option.noConfusion h
      · intro L hL hex
        rw [markerLineAux, if_pos hb] at hL
        have hL2 : (c :: tl).takeWhile notLineTerm = L := by
          injection hL
        subst hL2
        have hb2 := hb
        simp only [Bool.and_eq_true] at hb2
        have hlead : leadsWith markerChars (c :: tl) = true := hb2.2
        have hdec : (c :: tl) = markerChars ++ (c :: tl).drop 11 := by
          have hd := leadsWith_decomp markerChars (c :: tl) hlead
          rwa [markerChars_length] at hd
        have hmarker_nl : ∀ e ∈ markerChars, notLineTerm e = true := by decide
        have hL11 : ((c :: tl).takeWhile notLineTerm).drop 11
            = ((c :: tl).drop 11).takeWhile notLineTerm := by
          conv_lhs => rw [hdec]
          rw [takeWhile_append_of_all _ _ _ hmarker_nl, ← markerChars_length,
            List.drop_left]
        rw [hL11] at hex
        have hmt : matchTail ((c :: tl).drop 11)
            = some ((((c :: tl).drop 11).takeWhile notLineTerm).dropWhile jsWs) :=
          matchTail_of_nonws _ hex
        rw [qscan, if_pos hb, hmt, hL11]
    · have h1 : markerLineAux b (c :: tl) = markerLineAux (isLineTerm c) tl := by
        rw [markerLineAux, if_neg hb]
      have h2 : qscan b (c :: tl) = qscan (isLineTerm c) tl := by
        rw [qscan, if_neg hb]
      rw [h1, h2]
      exact ih (isLineTerm c)

/-- C3 amended: the reconciler classifies the output by the first match of
`/^\[QUESTION\]:\s*(.+)$/m`, where lines are delimited by the ECMAScript
LineTerminators (LF, CR, LS, PS — iteration B's sanitizer leaves CR in the
scanned text).  When the first line starting with `[QUESTION]:` has a
non-whitespace character after the colon, the status becomes `question` and
the question field is the remainder of that line with surrounding whitespace
trimmed; when no line starts with the marker, the status becomes `review`
and the question is cleared.  (When the first marker line has only
whitespace after the colon, the multiline `\s*` may cross line breaks, so
the capture can be empty, come from a later line, or fail — see the
counterexample.)  In particular the scenario output yields `question` with
question `which env?`, a marker right after a bare carriage return is found,
and the capture stops at a carriage return. -/
theorem c3_question_classification (out : List Char) :
    (∀ L, markerLineSpec out = some L → (∃ c ∈ L.drop 11, jsWs c = false) →
      classifyOutput out = (.question, some (jsTrim (L.drop 11)))) ∧
    (markerLineSpec out = none → classifyOutput out = (.review, none)) ∧
    ((finishTmuxTask (some "some analysis\n[QUESTION]: which env?\nmore text".toList)
        "ts1".toList demoRunning).status = .question ∧
     (finishTmuxTask (some "some analysis\n[QUESTION]: which env?\nmore text".toList)
        "ts1".toList demoRunning).question = some "which env?".toList) ∧
    classifyOutput "a\r[QUESTION]: hi".toList = (.question, some "hi".toList) ∧
    classifyOutput "[QUESTION]: hi\rmore".toList = (.question, some "hi".toList) ∧
    classifyOutput "[QUESTION]:\r".toList = (.review, none) := by
  refine ⟨?_, ?_, ⟨by decide, by decide⟩, by decide, by decide, by decide⟩
  · intro L hL hex
    rw [markerLineSpec] at hL
    have hq := (qscan_markerLine out true).2 L hL hex
    rw [classifyOutput, questionScan, hq]
    show (Status.question, some (jsTrim ((L.drop 11).dropWhile jsWs))) = _
    rw [jsTrim_dropWhile]
  · intro h
    rw [markerLineSpec] at h
    have hq := (qscan_markerLine out true).1 h
    rw [classifyOutput, questionScan, hq]

theorem c3_question_classification_witness :
    classifyOutput "ok\n[QUESTION]: which db?".toList
      = (.question, some (jsTrim ("[QUESTION]: which db?".toList.drop 11))) :=
  (c3_question_classification "ok\n[QUESTION]: which db?".toList).1
    "[QUESTION]: which db?".toList (by decide) (by decide)

/-- C3 counterexample: the output consisting of the single line `[QUESTION]:`
has a line starting with the marker, yet the regex requires at least one
further character after the colon, so the reconciler classifies the task
`review`, not `question` with an empty question. -/
theorem c3_bare_marker_cex :
    markerLineSpec "[QUESTION]:".toList = some "[QUESTION]:".toList ∧
    (finishTmuxTask (some "[QUESTION]:".toList) "ts1".toList demoRunning).status
      = .review := by
  refine ⟨by decide, by decide⟩

/-! ### C5: the question-state invariant over reachable tasks -/

theorem classifyOutput_question_isSome (o : List Char)
    (h : (classifyOutput o).1 = .question) : (classifyOutput o).2.isSome = true := by
  rcases hq : questionScan o with _ | cap
  · rw [classifyOutput, hq] at h
    exact Status.noConfusion h
  · rw [classifyOutput, hq]
    rfl

theorem getLast_append_singleton (l : List HistEntry) (a : HistEntry) :
    (l ++ [a]).getLast? = some a := by
  induction l with
  | nil => rfl
  | cons b w ih =>
    rw [List.cons_append, List.getLast?_cons, ih]
    cases w <;> rfl

/-- Both reconcilers set a present question exactly in the `question` branch
and always append a worker (`claude`) history entry last. -/
theorem finishTmuxTask_question (log : Option (List Char)) (now : List Char)
    (t : Task) (hq : (finishTmuxTask log now t).status = .question) :
    (finishTmuxTask log now t).question.isSome = true ∧
    ((finishTmuxTask log now t).history.getLast?).map HistEntry.role
      = some Role.claude := by
  constructor
  · exact classifyOutput_question_isSome _ hq
  · show ((t.history ++ [(⟨Role.claude, finishTmuxOutput log⟩ : HistEntry)]).getLast?).map
      HistEntry.role = some Role.claude
    rw [getLast_append_singleton]
    rfl

theorem legacyClose_question (stdout stderr : List Char) (code : Int)
    (now : List Char) (t : Task)
    (hq : (legacyClose stdout stderr code now t).status = .question) :
    (legacyClose stdout stderr code now t).question.isSome = true ∧
    ((legacyClose stdout stderr code now t).history.getLast?).map HistEntry.role
      = some Role.claude := by
  constructor
  · exact classifyOutput_question_isSome _ hq
  · show ((t.history ++
        [(⟨Role.claude, legacyOutput stdout stderr code⟩ : HistEntry)]).getLast?).map
      HistEntry.role = some Role.claude
    rw [getLast_append_singleton]
    rfl

/-- A successful PATCH either carries no status field — leaving status,
question and history untouched — or sets the status to a target of the
endpoint's table, which is never `question`. -/
theorem patchTaskBody_ok_cases (t tNew : Task) (body : PatchBody) (now : List Char)
    (h : patchTaskBody t body now = .ok tNew) :
    (tNew.status = t.status ∧ tNew.question = t.question ∧
      tNew.history = t.history) ∨ tNew.status ≠ .question := by
  rcases hb : body.status with _ | st
  · left
    simp only [patchTaskBody, hb] at h
    have h2 : applyMeta body now t = tNew := by injection h
    subst h2
    exact ⟨rfl, rfl, rfl⟩
  · right
    simp only [patchTaskBody, hb] at h
    split at h
    next hcontains => exact Except.noConfusion h
    next hcontains =>
      have hc2 : (allowedTargets t.status).contains st = true := by
        simpa using hcontains
      have hst : st ≠ .question := by
        intro hqe
        subst hqe
        cases hts : t.status <;> rw [hts] at hc2 <;> exact absurd hc2 (by decide)
      split at h
      · split at h
        · exact Except.noConfusion h
        · injection h with h4
          subst h4
          simpa [applyMeta] using hst
      · injection h with h4
        subst h4
        simpa [applyMeta] using hst

/-- C5 amended: in every reachable task state, `status = question` implies the
question field is set (to a — possibly empty — string) and the most recent
history entry has the worker (`claude`) role.  The non-emptiness asserted by
the claim fails — see the counterexample. -/
theorem c5_question_invariant (t : Task) (h : Reachable t)
    (hq : t.status = .question) :
    t.question.isSome = true ∧
    (t.history.getLast?).map HistEntry.role = some Role.claude := by
  induction h with
  | create id title descr ts => exact Status.noConfusion hq
  | tmuxOk now hr hp ih => exact Status.noConfusion hq
  | tmuxErr err now hr hp ih => exact Status.noConfusion hq
  | legacyOk pid now hr hp ih => exact Status.noConfusion hq
  | legacyDone stdout stderr code now hr hst ih =>
    exact legacyClose_question _ _ _ _ _ hq
  | legacyErr err now hr hst ih => exact Status.noConfusion hq
  | tick2 hasTmux entry sessionExists log now hr hst ih =>
    rcases entry with _ | e
    · rw [tickRunning2] at hq
      exact Status.noConfusion hq
    · cases e
      · rw [tickRunning2] at hq ⊢
        by_cases hc : (hasTmux && !sessionExists) = true
        · rw [if_pos hc] at hq ⊢
          exact finishTmuxTask_question _ _ _ hq
        · rw [if_neg hc] at hq ⊢
          rw [hq] at hst
          exact Status.noConfusion hst
      · rw [tickRunning2] at hq
        rw [hq] at hst
        exact Status.noConfusion hst
  | patch body now hr hok ih =>
    rcases patchTaskBody_ok_cases _ _ _ _ hok with ⟨h1, h2, h3⟩ | h1
    · rw [h2, h3]
      exact ih (h1 ▸ hq)
    · exact absurd hq h1

theorem c5reachable_questionOk : Reachable c5questionOk := by
  have he : c5questionOk = tickRunning2 true (some .tmuxEntry) false
      (some "[QUESTION]: hi".toList) "ts2".toList c5running := by decide
  rw [he]
  exact Reachable.tick2 true (some .tmuxEntry) false (some "[QUESTION]: hi".toList)
    "ts2".toList
    (Reachable.tmuxOk "ts1".toList
      (Reachable.create "t1".toList "fix".toList "d".toList "ts0".toList) rfl)
    rfl

theorem c5_question_invariant_witness :
    c5questionOk.question.isSome = true ∧
    (c5questionOk.history.getLast?).map HistEntry.role = some Role.claude :=
  c5_question_invariant c5questionOk c5reachable_questionOk (by decide)

/-- C5 counterexample: a reachable task state with `status = question` whose
question field is the empty string: the regex matches the trailing space, and
the capture trims to `""`.  The claim's `question is non-empty` part fails. -/
theorem c5_empty_question_reachable_cex :
    Reachable c5questionEmpty ∧ c5questionEmpty.status = .question ∧
    c5questionEmpty.question = some [] := by
  refine ⟨?_, by decide, by decide⟩
  have he : c5questionEmpty = tickRunning2 true (some .tmuxEntry) false
      (some "[QUESTION]: ".toList) "ts2".toList c5running := by decide
  rw [he]
  exact Reachable.tick2 true (some .tmuxEntry) false (some "[QUESTION]: ".toList)
    "ts2".toList
    (Reachable.tmuxOk "ts1".toList
      (Reachable.create "t1".toList "fix".toList "d".toList "ts0".toList) rfl)
    rfl

/-! ### C8: the sanitizers -/

theorem alpha_not_digit (c : Char) (h : c.isAlpha = true) : c.isDigit = false := by
  simp [Char.isAlpha, Char.isUpper, Char.isLower, Char.isDigit, UInt32.le_def,
    UInt32.lt_def, BitVec.le_def, BitVec.lt_def] at *
  omega

theorem alpha_ne_semi (c : Char) (h : c.isAlpha = true) : c ≠ ';' :=
  fun he => absurd (he ▸ h) (by decide)

theorem alpha_ne_qm (c : Char) (h : c.isAlpha = true) : c ≠ '?' :=
  fun he => absurd (he ▸ h) (by decide)

/-- The CSI final class `[a-zA-Z<>=~]` is disjoint from the parameter class
`[0-9;?]`, so the regex engine can never backtrack a final character into the
parameter run. -/
theorem final1_not_param1 (c : Char) (h : isCsiFinal1 c = true) :
    isCsiParam1 c = false := by
  rw [isCsiFinal1] at h
  rw [isCsiParam1]
  simp only [Bool.or_eq_true] at h
  simp only [Bool.or_eq_false_iff]
  rcases h with ((((h | h) | h) | h) | h)
  · exact ⟨⟨alpha_not_digit c h, by simpa using alpha_ne_semi c h⟩,
      by simpa using alpha_ne_qm c h⟩
  all_goals
    (have hc := of_decide_eq_true h
     subst hc
     refine ⟨⟨by decide, by decide⟩, by decide⟩)

/-- The CSI final class `[a-zA-Z]` is disjoint from the parameter class
`[0-9;]`. -/
theorem final2_not_param2 (c : Char) (h : isCsiFinal2 c = true) :
    isCsiParam2 c = false := by
  rw [isCsiFinal2] at h
  rw [isCsiParam2]
  simp only [Bool.or_eq_false_iff]
  exact ⟨alpha_not_digit c h, by simpa using alpha_ne_semi c h⟩

theorem charsetFinal_ne_esc (c : Char) (h : isCharsetFinal c = true) :
    c ≠ escChar :=
  fun he => absurd (he ▸ h) (by decide)

theorem csiRun_plain_cons_ne (param finalc : Char → Bool) (c : Char)
    (x : List Char) (h : c ≠ escChar) :
    csiRun param finalc .plain (c :: x) = c :: csiRun param finalc .plain x := by
  rw [csiRun, if_neg h]

theorem csiRun_plain_noesc_append (param finalc : Char → Bool) (u x : List Char)
    (h : ∀ c ∈ u, c ≠ escChar) :
    csiRun param finalc .plain (u ++ x) = u ++ csiRun param finalc .plain x := by
  induction u with
  | nil => simp
  | cons a w ih =>
    rw [List.cons_append,
      csiRun_plain_cons_ne _ _ _ _ (h a (List.mem_cons_self a w)),
      ih (fun c hc => h c (List.mem_cons_of_mem a hc)), List.cons_append]

theorem csiRun_plain_noesc_id (param finalc : Char → Bool) (u : List Char)
    (h : ∀ c ∈ u, c ≠ escChar) : csiRun param finalc .plain u = u := by
  have h2 := csiRun_plain_noesc_append param finalc u [] h
  rw [show csiRun param finalc .plain [] = [] from rfl, List.append_nil] at h2
  exact h2

theorem csiRun_inSeq_consume (param finalc : Char → Bool) (params : List Char)
    (fin : Char) (x : List Char)
    (hp : ∀ c ∈ params, param c = true) (hfp : param fin = false)
    (hf : finalc fin = true) :
    ∀ acc, csiRun param finalc (.inSeq acc) (params ++ (fin :: x))
      = csiRun param finalc .plain x := by
  induction params with
  | nil =>
    intro acc
    rw [List.nil_append, csiRun, if_neg (by simp [hfp]), if_pos hf]
  | cons p ps ih =>
    intro acc
    rw [List.cons_append, csiRun, if_pos (hp p (List.mem_cons_self p ps))]
    exact ih (fun c hc => hp c (List.mem_cons_of_mem p hc)) _

/-- A CSI sequence at the head of the input is removed whole. -/
theorem csiRun_remove (param finalc : Char → Bool) (params : List Char)
    (fin : Char) (x : List Char)
    (hp : ∀ c ∈ params, param c = true) (hfp : param fin = false)
    (hf : finalc fin = true) :
    csiRun param finalc .plain (escChar :: '[' :: (params ++ (fin :: x)))
      = csiRun param finalc .plain x := by
  rw [csiRun, if_pos rfl, csiRun, if_pos rfl]
  exact csiRun_inSeq_consume param finalc params fin x hp hfp hf []

/-- An OSC sequence passes through the CSI automaton unchanged (its second
character is `]`, not `[`, and its body is escape-free). -/
theorem csiRun_pass_osc (param finalc : Char → Bool) (body x : List Char)
    (hb : ∀ c ∈ body, c ≠ belChar ∧ c ≠ escChar) :
    csiRun param finalc .plain (escChar :: ']' :: (body ++ (belChar :: x)))
      = escChar :: ']' :: (body ++ (belChar :: csiRun param finalc .plain x)) := by
  rw [csiRun, if_pos rfl, csiRun, if_neg (by decide), if_neg (by decide)]
  have hne : ∀ c ∈ body ++ [belChar], c ≠ escChar := by
    intro c hc
    rcases List.mem_append.mp hc with hc | hc
    · exact (hb c hc).2
    · have hcb : c = belChar := by simpa using hc
      subst hcb
      decide
  have h2 := csiRun_plain_noesc_append param finalc (body ++ [belChar]) x hne
  rw [List.append_assoc, List.singleton_append] at h2
  rw [h2, List.append_assoc, List.singleton_append]

/-- A charset escape passes through the CSI automaton unchanged. -/
theorem csiRun_pass_charset (param finalc : Char → Bool) (d e : Char)
    (x : List Char) (hd : d = '(' ∨ d = ')') (he : isCharsetFinal e = true) :
    csiRun param finalc .plain (escChar :: d :: e :: x)
      = escChar :: d :: e :: csiRun param finalc .plain x := by
  have hd1 : d ≠ '[' := by rcases hd with h | h <;> subst h <;> decide
  have hd2 : d ≠ escChar := by rcases hd with h | h <;> subst h <;> decide
  rw [csiRun, if_pos rfl, csiRun, if_neg hd1, if_neg hd2,
    csiRun_plain_cons_ne _ _ _ _ (charsetFinal_ne_esc e he)]

/-- A carriage return passes through the CSI automaton unchanged. -/
theorem csiRun_pass_cr (param finalc : Char → Bool) (x : List Char) :
    csiRun param finalc .plain ('\r' :: x) = '\r' :: csiRun param finalc .plain x :=
  csiRun_plain_cons_ne param finalc '\r' x (by decide)

theorem oscRun_plain_cons_ne (c : Char) (x : List Char) (h : c ≠ escChar) :
    oscRun .plain (c :: x) = c :: oscRun .plain x := by
  rw [oscRun, if_neg h]

theorem oscRun_plain_noesc_append (u x : List Char)
    (h : ∀ c ∈ u, c ≠ escChar) :
    oscRun .plain (u ++ x) = u ++ oscRun .plain x := by
  induction u with
  | nil => simp
  | cons a w ih =>
    rw [List.cons_append, oscRun_plain_cons_ne _ _ (h a (List.mem_cons_self a w)),
      ih (fun c hc => h c (List.mem_cons_of_mem a hc)), List.cons_append]

theorem oscRun_plain_noesc_id (u : List Char) (h : ∀ c ∈ u, c ≠ escChar) :
    oscRun .plain u = u := by
  have h2 := oscRun_plain_noesc_append u [] h
  rw [show oscRun .plain [] = [] from rfl, List.append_nil] at h2
  exact h2

theorem oscRun_inSeq_consume (body x : List Char)
    (hb : ∀ c ∈ body, c ≠ belChar) :
    ∀ acc, oscRun (.inSeq acc) (body ++ (belChar :: x)) = oscRun .plain x := by
  induction body with
  | nil =>
    intro acc
    rw [List.nil_append, oscRun, if_pos rfl]
  | cons a w ih =>
    intro acc
    rw [List.cons_append, oscRun, if_neg (hb a (List.mem_cons_self a w))]
    exact ih (fun c hc => hb c (List.mem_cons_of_mem a hc)) _

/-- An OSC sequence at the head of the input is removed whole. -/
theorem oscRun_remove (body x : List Char) (hb : ∀ c ∈ body, c ≠ belChar) :
    oscRun .plain (escChar :: ']' :: (body ++ (belChar :: x)))
      = oscRun .plain x := by
  rw [oscRun, if_pos rfl, oscRun, if_pos rfl]
  exact oscRun_inSeq_consume body x hb []

/-- A charset escape passes through the OSC automaton unchanged. -/
theorem oscRun_pass_charset (d e : Char) (x : List Char)
    (hd : d = '(' ∨ d = ')') (he : isCharsetFinal e = true) :
    oscRun .plain (escChar :: d :: e :: x)
      = escChar :: d :: e :: oscRun .plain x := by
  have hd1 : d ≠ ']' := by rcases hd with h | h <;> subst h <;> decide
  have hd2 : d ≠ escChar := by rcases hd with h | h <;> subst h <;> decide
  rw [oscRun, if_pos rfl, oscRun, if_neg hd1, if_neg hd2,
    oscRun_plain_cons_ne _ _ (charsetFinal_ne_esc e he)]

theorem oscRun_pass_cr (x : List Char) :
    oscRun .plain ('\r' :: x) = '\r' :: oscRun .plain x :=
  oscRun_plain_cons_ne '\r' x (by decide)

theorem charsetRun_plain_cons_ne (c : Char) (x : List Char) (h : c ≠ escChar) :
    charsetRun .plain (c :: x) = c :: charsetRun .plain x := by
  rw [charsetRun, if_neg h]

theorem charsetRun_plain_noesc_append (u x : List Char)
    (h : ∀ c ∈ u, c ≠ escChar) :
    charsetRun .plain (u ++ x) = u ++ charsetRun .plain x := by
  induction u with
  | nil => simp
  | cons a w ih =>
    rw [List.cons_append,
      charsetRun_plain_cons_ne _ _ (h a (List.mem_cons_self a w)),
      ih (fun c hc => h c (List.mem_cons_of_mem a hc)), List.cons_append]

theorem charsetRun_plain_noesc_id (u : List Char) (h : ∀ c ∈ u, c ≠ escChar) :
    charsetRun .plain u = u := by
  have h2 := charsetRun_plain_noesc_append u [] h
  rw [show charsetRun .plain [] = [] from rfl, List.append_nil] at h2
  exact h2

/-- A charset escape at the head of the input is removed whole. -/
theorem charsetRun_remove (d e : Char) (x : List Char)
    (hd : d = '(' ∨ d = ')') (he : isCharsetFinal e = true) :
    charsetRun .plain (escChar :: d :: e :: x) = charsetRun .plain x := by
  rw [charsetRun, if_pos rfl, charsetRun,
    if_pos (by rcases hd with h | h <;> simp [h]), charsetRun, if_pos he]

theorem charsetRun_pass_cr (x : List Char) :
    charsetRun .plain ('\r' :: x) = '\r' :: charsetRun .plain x :=
  charsetRun_plain_cons_ne '\r' x (by decide)

theorem pass_csi1 (cs : List Char) (h : CatOf CtrlSeq cs) :
    CatOf OscCsSeq (csiRun isCsiParam1 isCsiFinal1 .plain cs) := by
  induction h with
  | nil => exact CatOf.nil
  | cons s rest hs hrest ih =>
    cases hs with
    | csi params fin hp hf =>
      have hshape : (escChar :: '[' :: (params ++ [fin])) ++ rest
          = escChar :: '[' :: (params ++ (fin :: rest)) := by
        simp
      rw [hshape,
        csiRun_remove _ _ params fin rest hp (final1_not_param1 fin hf) hf]
      exact ih
    | osc body hb =>
      have hshape : (escChar :: ']' :: (body ++ [belChar])) ++ rest
          = escChar :: ']' :: (body ++ (belChar :: rest)) := by
        simp
      rw [hshape, csiRun_pass_osc _ _ body rest hb]
      have hshape2 : escChar :: ']' ::
          (body ++ (belChar :: csiRun isCsiParam1 isCsiFinal1 .plain rest))
          = (escChar :: ']' :: (body ++ [belChar]))
            ++ csiRun isCsiParam1 isCsiFinal1 .plain rest := by
        simp
      rw [hshape2]
      exact CatOf.cons _ _ (OscCsSeq.osc body hb) ih
    | charset d e hd he =>
      have hshape : ([escChar, d, e] : List Char) ++ rest
          = escChar :: d :: e :: rest := by simp
      rw [hshape, csiRun_pass_charset _ _ d e rest hd he]
      exact CatOf.cons [escChar, d, e] _ (OscCsSeq.charset d e hd he) ih
    | cr =>
      have hshape : (['\r'] : List Char) ++ rest = '\r' :: rest := by simp
      rw [hshape, csiRun_pass_cr]
      exact CatOf.cons ['\r'] _ OscCsSeq.cr ih

theorem pass_osc1 (cs : List Char) (h : CatOf OscCsSeq cs) :
    CatOf CsCrSeq (oscRun .plain cs) := by
  induction h with
  | nil => exact CatOf.nil
  | cons s rest hs hrest ih =>
    cases hs with
    | osc body hb =>
      have hshape : (escChar :: ']' :: (body ++ [belChar])) ++ rest
          = escChar :: ']' :: (body ++ (belChar :: rest)) := by
        simp
      rw [hshape, oscRun_remove body rest (fun c hc => (hb c hc).1)]
      exact ih
    | charset d e hd he =>
      have hshape : ([escChar, d, e] : List Char) ++ rest
          = escChar :: d :: e :: rest := by simp
      rw [hshape, oscRun_pass_charset d e rest hd he]
      exact CatOf.cons [escChar, d, e] _ (CsCrSeq.charset d e hd he) ih
    | cr =>
      have hshape : (['\r'] : List Char) ++ rest = '\r' :: rest := by simp
      rw [hshape, oscRun_pass_cr]
      exact CatOf.cons ['\r'] _ CsCrSeq.cr ih

theorem pass_charset1 (cs : List Char) (h : CatOf CsCrSeq cs) :
    CatOf (fun s => s = ['\r']) (charsetRun .plain cs) := by
  induction h with
  | nil => exact CatOf.nil
  | cons s rest hs hrest ih =>
    cases hs with
    | charset d e hd he =>
      have hshape : ([escChar, d, e] : List Char) ++ rest
          = escChar :: d :: e :: rest := by simp
      rw [hshape, charsetRun_remove d e rest hd he]
      exact ih
    | cr =>
      have hshape : (['\r'] : List Char) ++ rest = '\r' :: rest := by simp
      rw [hshape, charsetRun_pass_cr]
      exact CatOf.cons ['\r'] _ rfl ih

theorem pass_filter_cr (cs : List Char) (h : CatOf (fun s => s = ['\r']) cs) :
    cs.filter (· ≠ '\r') = [] := by
  induction h with
  | nil => rfl
  | cons s rest hs hrest ih =>
    subst hs
    rw [List.singleton_append, List.filter_cons, if_neg (by decide)]
    exact ih

theorem pass_csi2 (cs : List Char) (h : CatOf CtrlSeq2 cs) :
    CatOf OscSeq (csiRun isCsiParam2 isCsiFinal2 .plain cs) := by
  induction h with
  | nil => exact CatOf.nil
  | cons s rest hs hrest ih =>
    cases hs with
    | csi params fin hp hf =>
      have hshape : (escChar :: '[' :: (params ++ [fin])) ++ rest
          = escChar :: '[' :: (params ++ (fin :: rest)) := by
        simp
      rw [hshape,
        csiRun_remove _ _ params fin rest hp (final2_not_param2 fin hf) hf]
      exact ih
    | osc body hb =>
      have hshape : (escChar :: ']' :: (body ++ [belChar])) ++ rest
          = escChar :: ']' :: (body ++ (belChar :: rest)) := by
        simp
      rw [hshape, csiRun_pass_osc _ _ body rest hb]
      have hshape2 : escChar :: ']' ::
          (body ++ (belChar :: csiRun isCsiParam2 isCsiFinal2 .plain rest))
          = (escChar :: ']' :: (body ++ [belChar]))
            ++ csiRun isCsiParam2 isCsiFinal2 .plain rest := by
        simp
      rw [hshape2]
      exact CatOf.cons _ _ (OscSeq.osc body hb) ih

theorem pass_osc2 (cs : List Char) (h : CatOf OscSeq cs) :
    oscRun .plain cs = [] := by
  induction h with
  | nil => rfl
  | cons s rest hs hrest ih =>
    cases hs with
    | osc body hb =>
      have hshape : (escChar :: ']' :: (body ++ [belChar])) ++ rest
          = escChar :: ']' :: (body ++ (belChar :: rest)) := by
        simp
      rw [hshape, oscRun_remove body rest (fun c hc => (hb c hc).1)]
      exact ih

/-- C8 amended: iteration A's `stripAnsi` removes CSI sequences, OSC
sequences, charset-selection escapes and carriage returns — it is the
identity on text containing neither an escape character nor a carriage
return, and maps text consisting only of such control sequences to the empty
string.  Iteration B's `stripAnsi` removes only CSI (narrower classes) and
OSC sequences: it is the identity on text containing no escape character —
carriage returns included — and maps text consisting only of CSI/OSC
sequences to the empty string. -/
theorem c8_sanitizer (cs : List Char) :
    (escChar ∉ cs → '\r' ∉ cs → stripAnsi1 cs = cs) ∧
    (CatOf CtrlSeq cs → stripAnsi1 cs = []) ∧
    (escChar ∉ cs → stripAnsi2 cs = cs) ∧
    (CatOf CtrlSeq2 cs → stripAnsi2 cs = []) := by
  refine ⟨?_, ?_, ?_, ?_⟩
  · intro hesc hcr
    have h1 : ∀ c ∈ cs, c ≠ escChar := fun c hc he => hesc (he ▸ hc)
    rw [stripAnsi1, replaceCsi, csiRun_plain_noesc_id _ _ _ h1,
      replaceOsc, oscRun_plain_noesc_id _ h1,
      replaceCharset, charsetRun_plain_noesc_id _ h1]
    refine List.filter_eq_self.mpr ?_
    intro a ha
    have hane : a ≠ '\r' := fun he => hcr (he ▸ ha)
    simpa using hane
  · intro h
    have h1 := pass_charset1 _ (pass_osc1 _ (pass_csi1 cs h))
    rw [stripAnsi1, replaceCsi, replaceOsc, replaceCharset]
    exact pass_filter_cr _ h1
  · intro hesc
    have h1 : ∀ c ∈ cs, c ≠ escChar := fun c hc he => hesc (he ▸ hc)
    rw [stripAnsi2, replaceCsi, csiRun_plain_noesc_id _ _ _ h1,
      replaceOsc, oscRun_plain_noesc_id _ h1]
  · intro h
    rw [stripAnsi2, replaceCsi, replaceOsc]
    exact pass_osc2 _ (pass_csi2 cs h)

theorem c8_sanitizer_witness :
    stripAnsi1 "done.".toList = "done.".toList ∧
    stripAnsi1 (escChar :: '[' :: ('3' :: '1' :: ['m'])) = [] ∧
    stripAnsi2 "don\re.".toList = "don\re.".toList := by
  refine ⟨(c8_sanitizer "done.".toList).1 (by decide) (by decide), ?_, ?_⟩
  · refine (c8_sanitizer _).2.1 ?_
    have hshape : (escChar :: '[' :: ('3' :: '1' :: ['m']) : List Char)
        = (escChar :: '[' :: (['3', '1'] ++ ['m'])) ++ [] := by decide
    rw [hshape]
    exact CatOf.cons _ [] (CtrlSeq.csi ['3', '1'] 'm' (by decide) (by decide))
      CatOf.nil
  · exact (c8_sanitizer "don\re.".toList).2.2.1 (by decide)

/-- C8 counterexample: a single carriage return is text consisting only of
the named control sequences, yet iteration B's sanitizer (lines 609-612)
returns it unchanged instead of the empty string — it removes neither
carriage returns nor charset-selection escapes. -/
theorem c8_stripAnsi2_keeps_cr_cex :
    CatOf CtrlSeq ['\r'] ∧ stripAnsi2 ['\r'] = ['\r'] := by
  constructor
  · exact CatOf.cons ['\r'] [] CtrlSeq.cr CatOf.nil
  · decide

end GrindBot
